/-
Verification of the typed value-encoding layer of the lldap server
(src/server/src/domain/types.rs): the opaque value codec (Serialized,
backed by bincode 1.x legacy fixint little-endian encoding), the
deterministic Uuid, the normalized UserId, the validated JpegPhoto
asset, and the AttributeType tag.

Rust byte buffers are modelled as List Nat with entries below 256.
Rust strings are modelled as their UTF-8 byte sequences, together with
a validity proof where the Rust type system guarantees it.
-/
import Mathlib

namespace Lldap

/-! ### Little-endian byte encoding of machine integers -/

/-- The `k` little-endian bytes of `n` (bincode fixint encoding of
unsigned integers, truncating above `2 ^ (8 * k)`). -/
def leBytes : Nat → Nat → List Nat
  | 0, _ => []
  | k + 1, n => n % 256 :: leBytes k (n / 256)

/-- The value of a little-endian byte sequence. -/
def leValue : List Nat → Nat
  | [] => 0
  | b :: rest => b % 256 + 256 * leValue rest

/-! ### UTF-8 validity (std String invariant, checked by
`String::from_utf8` / `str::from_utf8`) -/

/-- For a leading byte, the list of admissible (lo, hi) ranges of the
continuation bytes that must follow (RFC 3629), or `none` for an
invalid leading byte. -/
def utf8Pending (b : Nat) : Option (List (Nat × Nat)) :=
  if b < 0x80 then some []
  else if b < 0xC2 then none
  else if b ≤ 0xDF then some [(0x80, 0xBF)]
  else if b ≤ 0xEF then
    some [(if b = 0xE0 then 0xA0 else 0x80, if b = 0xED then 0x9F else 0xBF),
          (0x80, 0xBF)]
  else if b ≤ 0xF4 then
    some [(if b = 0xF0 then 0x90 else 0x80, if b = 0xF4 then 0x8F else 0xBF),
          (0x80, 0xBF), (0x80, 0xBF)]
  else none

/-- UTF-8 validation automaton: `pending` are the byte ranges still
expected for the current scalar value. -/
def validUtf8Go : List (Nat × Nat) → List Nat → Bool
  | [], [] => true
  | [], b :: rest =>
    match utf8Pending b with
    | some pend => validUtf8Go pend rest
    | none => false
  | _ :: _, [] => false
  | (lo, hi) :: pend, b :: rest =>
    decide (lo ≤ b) && decide (b ≤ hi) && validUtf8Go pend rest

/-- RFC 3629 UTF-8 validity of a byte sequence, as checked by
`String::from_utf8`. -/
def validUtf8 (l : List Nat) : Bool := validUtf8Go [] l

/-- A Rust `String` value: a byte sequence that is valid UTF-8. -/
def RustString := { bytes : List Nat // validUtf8 bytes = true }

instance : DecidableEq RustString := Subtype.instDecidableEq

/-! ### The bincode 1.x legacy codec, as used by `Serialized` -/

/-- bincode encoding of a byte sequence (`Vec<u8>`, `&str`, `String`,
`serde_bytes`): a u64 little-endian length followed by the bytes. -/
def bincodeEncodeBytes (content : List Nat) : List Nat :=
  leBytes 8 content.length ++ content

/-- bincode decoding of a byte sequence: read an 8-byte little-endian
length, then that many content bytes.  `bincode::deserialize` allows
trailing bytes, which are ignored. -/
def bincodeDecodeBytes (b : List Nat) : Option (List Nat) :=
  if 8 ≤ b.length then
    if leValue (b.take 8) ≤ (b.drop 8).length then
      some ((b.drop 8).take (leValue (b.take 8)))
    else none
  else none

/-- bincode fixint encoding of an `i64`: 8 little-endian bytes of the
two-complement value. -/
def encodeI64 (i : Int) : List Nat := leBytes 8 ((i % (2 ^ 64))).toNat

/-- Reading an `i64` back from its 8 little-endian bytes. -/
def i64FromLe (n : Nat) : Int :=
  if n < 2 ^ 63 then (n : Int) else (n : Int) - 2 ^ 64

/-- bincode decoding of an `i64`: read 8 bytes (trailing bytes are
allowed by `bincode::deserialize`). -/
def bincodeDecodeI64 (b : List Nat) : Option Int :=
  if 8 ≤ b.length then some (i64FromLe (leValue (b.take 8))) else none

/-! ### `Serialized`: the opaque value codec

`Serialized::from(&v)` is `bincode::serialize(&v).unwrap()` and
`Serialized::convert_to::<T>()` is `bincode::deserialize(&self.0)`,
specialized here to the four supported concrete types.  A chrono
`NaiveDateTime` serializes through its textual (Debug) form, see below. -/

def Serialized.fromStr (s : RustString) : List Nat := bincodeEncodeBytes s.val

def Serialized.fromI64 (i : Int) : List Nat := encodeI64 i

def Serialized.convertToI64 (b : List Nat) : Option Int := bincodeDecodeI64 b

/-- `convert_to::<String>`: bincode byte-sequence decode followed by the
UTF-8 validation done by the `String` deserializer. -/
def Serialized.convertToString (b : List Nat) : Option RustString :=
  match bincodeDecodeBytes b with
  | some c => if h : validUtf8 c = true then some ⟨c, h⟩ else none
  | none => none

/-! ### `JpegPhoto`: the validated binary asset -/

/-- A `JpegPhoto` value: raw bytes, either empty or validated at
construction time. -/
structure JpegPhoto where
  bytes : List Nat
deriving DecidableEq

def JpegPhoto.null : JpegPhoto := ⟨[]⟩

def JpegPhoto.is_empty (p : JpegPhoto) : Bool := p.bytes.isEmpty

def JpegPhoto.into_bytes (p : JpegPhoto) : List Nat := p.bytes

/-- `TryFrom<&[u8]> for JpegPhoto`: empty input gives the null photo;
otherwise the bytes must decode as a JPEG image, and are then stored
unchanged.  The image crate JPEG decoder is external to the repository
and is abstracted as the predicate `jpegDecodes`. -/
def JpegPhoto.try_from (jpegDecodes : List Nat → Bool) (bytes : List Nat) :
    Option JpegPhoto :=
  if bytes.isEmpty then some JpegPhoto.null
  else if jpegDecodes bytes then some ⟨bytes⟩ else none

/-- `Serialized::from(&JpegPhoto)`: `serde_bytes` serializes the raw
bytes as a bincode byte sequence. -/
def Serialized.fromPhoto (p : JpegPhoto) : List Nat := bincodeEncodeBytes p.bytes

/-- `convert_to::<JpegPhoto>`: the derived deserializer refills the
byte vector without re-validation. -/
def Serialized.convertToPhoto (b : List Nat) : Option JpegPhoto :=
  (bincodeDecodeBytes b).map JpegPhoto.mk

/-! ### `AttributeType`: the closed attribute type tag -/

/-- Plain text, kept outside the `AttributeType` namespace so that the
variant named `String` does not shadow the string type. -/
abbrev Text := String

inductive AttributeType
  | String
  | Integer
  | JpegPhoto
  | DateTime
deriving DecidableEq

/-- strum `EnumString`: exact, case-sensitive match against the
variant names. -/
def AttributeType.from_str (s : Text) : Option AttributeType :=
  if s = "String" then some AttributeType.String
  else if s = "Integer" then some AttributeType.Integer
  else if s = "JpegPhoto" then some AttributeType.JpegPhoto
  else if s = "DateTime" then some AttributeType.DateTime
  else none

/-- strum `IntoStaticStr`: the variant name. -/
def AttributeType.to_str : AttributeType → Text
  | AttributeType.String => "String"
  | AttributeType.Integer => "Integer"
  | AttributeType.JpegPhoto => "JpegPhoto"
  | AttributeType.DateTime => "DateTime"

/-! ### `UserId`: the normalized login identifier

Strings are modelled as lists of Unicode scalar values.  The std
Unicode case mappings are external tables; they are modelled here on
the subdomain relevant to the claims: the full ASCII range, plus
U+00DF (the sharp s, whose uppercase mapping is the two-letter SS).
Outside the modelled subdomain the mappings are the identity. -/

def charToLower (c : Nat) : List Nat :=
  if 65 ≤ c ∧ c ≤ 90 then [c + 32] else [c]

def charToUpper (c : Nat) : List Nat :=
  if 97 ≤ c ∧ c ≤ 122 then [c - 32]
  else if c = 0xDF then [83, 83]
  else [c]

/-- `str::to_lowercase`. -/
def strToLower (s : List Nat) : List Nat := (s.map charToLower).flatten

/-- `str::to_uppercase`. -/
def strToUpper (s : List Nat) : List Nat := (s.map charToUpper).flatten

structure UserId where
  id : List Nat
deriving DecidableEq

/-- `UserId::new`: canonicalizes by lowercasing. -/
def UserId.new (s : List Nat) : UserId := ⟨strToLower s⟩

def UserId.as_str (u : UserId) : List Nat := u.id

/-- `From<String> for UserId`, used when reconstructing from storage. -/
def UserId.fromString (s : List Nat) : UserId := UserId.new s

/-! ### chrono `NaiveDateTime`

serde serializes a `NaiveDateTime` through its Debug rendering
(`YYYY-MM-DDTHH:MM:SS` plus an optional fraction of 3, 6 or 9 digits)
and deserializes by parsing that text back.  The model bounds years to
the four-digit range 0..=9999 (chrono allows a wider range, rendered
with an explicit sign) and seconds to 0..=59 (no leap seconds). -/

structure DateFields where
  year : Nat
  month : Nat
  day : Nat
  hour : Nat
  minute : Nat
  second : Nat
  nano : Nat
deriving DecidableEq

def isLeapYear (y : Nat) : Bool :=
  (y % 4 == 0 && !(y % 100 == 0)) || y % 400 == 0

def daysInMonth (y m : Nat) : Nat :=
  if m = 2 then (if isLeapYear y then 29 else 28)
  else if m = 4 ∨ m = 6 ∨ m = 9 ∨ m = 11 then 30
  else 31

def validDate (d : DateFields) : Prop :=
  d.year < 10000 ∧ 1 ≤ d.month ∧ d.month ≤ 12 ∧ 1 ≤ d.day ∧
  d.day ≤ daysInMonth d.year d.month ∧ d.hour < 24 ∧ d.minute < 60 ∧
  d.second < 60 ∧ d.nano < 1000000000

instance (d : DateFields) : Decidable (validDate d) := by
  unfold validDate; infer_instance

def NaiveDateTime := { d : DateFields // validDate d }

instance : DecidableEq NaiveDateTime := Subtype.instDecidableEq

/-! #### Decimal rendering helpers (ASCII bytes) -/

def digitByte (d : Nat) : Nat := 48 + d

def pad2 (n : Nat) : List Nat := [n / 10, n % 10].map digitByte

def pad3 (n : Nat) : List Nat := [n / 100, n / 10 % 10, n % 10].map digitByte

def pad4 (n : Nat) : List Nat :=
  [n / 1000, n / 100 % 10, n / 10 % 10, n % 10].map digitByte

def pad6 (n : Nat) : List Nat := pad3 (n / 1000) ++ pad3 (n % 1000)

def pad9 (n : Nat) : List Nat :=
  pad3 (n / 1000000) ++ pad3 (n / 1000 % 1000) ++ pad3 (n % 1000)

/-- Fractional-second rendering: nothing for zero nanoseconds, else a
dot and 3, 6 or 9 digits, whichever fully represents the value (chrono
Debug and `SecondsFormat::AutoSi`). -/
def fracBytes (ns : Nat) : List Nat :=
  if ns = 0 then []
  else if ns % 1000000 = 0 then 46 :: pad3 (ns / 1000000)
  else if ns % 1000 = 0 then 46 :: pad6 (ns / 1000)
  else 46 :: pad9 ns

/-- chrono Debug format of a `NaiveDateTime` (the serde wire form):
`YYYY-MM-DDTHH:MM:SS` plus the optional fraction. -/
def fmtDateTime (d : DateFields) : List Nat :=
  pad4 d.year ++ 45 :: pad2 d.month ++ 45 :: pad2 d.day ++ 84 ::
  pad2 d.hour ++ 58 :: pad2 d.minute ++ 58 :: pad2 d.second ++
  fracBytes d.nano

/-! #### The chrono text parser (`FromStr for NaiveDateTime`) -/

/-- Scan a run of decimal digit bytes, accumulating their value. -/
def digitRun : Nat → List Nat → Nat × List Nat
  | acc, [] => (acc, [])
  | acc, c :: rest =>
    if 48 ≤ c ∧ c ≤ 57 then digitRun (acc * 10 + (c - 48)) rest
    else (acc, c :: rest)

/-- Parse a decimal number of at least one digit. -/
def parseNum (l : List Nat) : Option (Nat × List Nat) :=
  match l with
  | c :: rest =>
    if 48 ≤ c ∧ c ≤ 57 then some (digitRun (c - 48) rest) else none
  | [] => none

def expectByte (v : Nat) (l : List Nat) : Option (List Nat) :=
  match l with
  | c :: rest => if c = v then some rest else none
  | [] => none

/-- Collect a run of digit bytes as digit values. -/
def digitList : List Nat → List Nat × List Nat
  | [] => ([], [])
  | c :: rest =>
    if 48 ≤ c ∧ c ≤ 57 then
      let p := digitList rest
      ((c - 48) :: p.1, p.2)
    else ([], c :: rest)

def digitsVal (acc : Nat) (ds : List Nat) : Nat :=
  ds.foldl (fun a d => a * 10 + d) acc

/-- chrono `Fixed::Nanosecond`: an optional dot followed by at least
one digit; the first nine digits are significant, scaled to
nanoseconds; further digits are consumed and ignored. -/
def parseFrac (l : List Nat) : Option (Nat × List Nat) :=
  match l with
  | 46 :: rest =>
    match digitList rest with
    | ([], _) => none
    | (ds, r) =>
      some (digitsVal 0 (ds.take 9) * 10 ^ (9 - min 9 ds.length), r)
  | _ => some (0, l)

/-- chrono `FromStr for NaiveDateTime`: parse
`year-month-dayThour:minute:second` with an optional nanosecond
fraction, then validate the calendar fields. -/
def parseDateTime (l : List Nat) : Option DateFields :=
  Option.bind (parseNum l) fun py =>
  Option.bind (expectByte 45 py.2) fun r2 =>
  Option.bind (parseNum r2) fun pmo =>
  Option.bind (expectByte 45 pmo.2) fun r4 =>
  Option.bind (parseNum r4) fun pda =>
  Option.bind (expectByte 84 pda.2) fun r6 =>
  Option.bind (parseNum r6) fun ph =>
  Option.bind (expectByte 58 ph.2) fun r8 =>
  Option.bind (parseNum r8) fun pmi =>
  Option.bind (expectByte 58 pmi.2) fun r10 =>
  Option.bind (parseNum r10) fun ps =>
  Option.bind (parseFrac ps.2) fun pf =>
  if pf.2 = [] then
    if validDate ⟨py.1, pmo.1, pda.1, ph.1, pmi.1, ps.1, pf.1⟩ then
      some ⟨py.1, pmo.1, pda.1, ph.1, pmi.1, ps.1, pf.1⟩
    else none
  else none

/-! #### Format/parse roundtrip lemmas -/

/-- The head of the remaining input is not a decimal digit. -/
def nonDigitHead : List Nat → Prop
  | [] => True
  | c :: _ => c < 48 ∨ 57 < c

def Serialized.fromDateTime (d : NaiveDateTime) : List Nat :=
  bincodeEncodeBytes (fmtDateTime d.val)

def Serialized.convertToDateTime (b : List Nat) : Option NaiveDateTime :=
  match bincodeDecodeBytes b with
  | some c =>
    if validUtf8 c = true then
      match parseDateTime c with
      | some d => if hv : validDate d then some ⟨d, hv⟩ else none
      | none => none
    else none
  | none => none

/-! ### The Debug rendering of `Serialized`

The Debug implementation computes a display string: the bytes decoded
as a byte vector whose contents form UTF-8 text, else (for an 8-byte
buffer) the decimal form of the `i64`, else a fingerprint from
`DefaultHasher` (SipHash-1-3 with zero keys, hashing an 8-byte length
prefix followed by the raw bytes). -/

def add64 (a b : Nat) : Nat := (a + b) % 2 ^ 64

def rotl64 (r a : Nat) : Nat := (a % 2 ^ (64 - r)) * 2 ^ r + a / 2 ^ (64 - r)

structure SipState where
  v0 : Nat
  v1 : Nat
  v2 : Nat
  v3 : Nat

def sipRound (s : SipState) : SipState :=
  let v0 := add64 s.v0 s.v1
  let v1 := (rotl64 13 s.v1) ^^^ v0
  let v0 := rotl64 32 v0
  let v2 := add64 s.v2 s.v3
  let v3 := (rotl64 16 s.v3) ^^^ v2
  let v0 := add64 v0 v3
  let v3 := (rotl64 21 v3) ^^^ v0
  let v2 := add64 v2 v1
  let v1 := (rotl64 17 v1) ^^^ v2
  let v2 := rotl64 32 v2
  ⟨v0, v1, v2, v3⟩

/-- SipHash-1-3 core loop: one compression round per 8-byte
little-endian word, then the final block carrying the total length
modulo 256 in the top byte, then three finalization rounds. -/
def sipGo (s : SipState) (total : Nat) : List Nat → Nat
  | b0 :: b1 :: b2 :: b3 :: b4 :: b5 :: b6 :: b7 :: rest =>
    let m := leValue [b0, b1, b2, b3, b4, b5, b6, b7]
    let s1 := sipRound ⟨s.v0, s.v1, s.v2, s.v3 ^^^ m⟩
    sipGo ⟨s1.v0 ^^^ m, s1.v1, s1.v2, s1.v3⟩ total rest
  | rest =>
    let b := (total % 256) * 2 ^ 56 + leValue rest
    let s1 := sipRound ⟨s.v0, s.v1, s.v2, s.v3 ^^^ b⟩
    let s2 := sipRound (sipRound (sipRound
      ⟨s1.v0 ^^^ b, s1.v1, s1.v2 ^^^ 0xff, s1.v3⟩))
    s2.v0 ^^^ s2.v1 ^^^ s2.v2 ^^^ s2.v3

def sipHash13 (k0 k1 : Nat) (msg : List Nat) : Nat :=
  sipGo ⟨0x736f6d6570736575 ^^^ k0, 0x646f72616e646f6d ^^^ k1,
         0x6c7967656e657261 ^^^ k0, 0x7465646279746573 ^^^ k1⟩
    msg.length msg

/-! #### Decimal and hexadecimal text rendering -/

def decDigitsFuel : Nat → Nat → List Nat
  | 0, _ => []
  | fuel + 1, n => if n = 0 then [] else n % 10 :: decDigitsFuel fuel (n / 10)

/-- Decimal rendering of a natural number (ASCII bytes). -/
def natDecimalBytes (n : Nat) : List Nat :=
  if n = 0 then [48] else ((decDigitsFuel 20 n).reverse).map digitByte

/-- `i64::to_string`. -/
def intDecimalBytes (i : Int) : List Nat :=
  if i < 0 then 45 :: natDecimalBytes i.natAbs else natDecimalBytes i.toNat

def hexDigitsFuel : Nat → Nat → List Nat
  | 0, _ => []
  | fuel + 1, n => if n = 0 then [] else n % 16 :: hexDigitsFuel fuel (n / 16)

def upperHexDigit (d : Nat) : Nat := if d < 10 then 48 + d else 55 + d

/-- The Rust alternate, zero-padded, width-16 uppercase hex format used
for the fingerprint: `0x` followed by the hex digits of `n`,
zero-padded on the left to at least 14 digits (the width counts the
two prefix characters). -/
def fmtHex016 (n : Nat) : List Nat :=
  48 :: 120 ::
    (let ds := ((hexDigitsFuel 16 n).reverse).map upperHexDigit
     if ds.length < 14 then List.replicate (14 - ds.length) 48 ++ ds else ds)

/-- The fingerprint branch of the Debug rendering. -/
def hashFallback (b : List Nat) : List Nat :=
  [104, 97, 115, 104, 58, 32] ++
    fmtHex016 (sipHash13 0 0 (leBytes 8 b.length ++ b))

/-- The display string (as UTF-8 bytes) computed by
`impl Debug for Serialized`, before the Formatter wraps it in
`Serialized("...")`.  An 8-byte buffer always decodes as an `i64`, so
the second branch is total. -/
def serializedDebugField (b : List Nat) : List Nat :=
  match Serialized.convertToString b with
  | some s => s.val
  | none =>
    if b.length = 8 then intDecimalBytes (i64FromLe (leValue (b.take 8)))
    else hashFallback b

/-! ### MD5, the hash behind version-3 UUIDs -/

def not32 (x : Nat) : Nat := 0xFFFFFFFF ^^^ x

def add32 (a b : Nat) : Nat := (a + b) % 2 ^ 32

def rotl32 (r x : Nat) : Nat :=
  (x % 2 ^ (32 - r)) * 2 ^ r + x / 2 ^ (32 - r)

/-- The 64 MD5 sine-derived round constants. -/
def md5K : List Nat :=
  [0xd76aa478, 0xe8c7b756, 0x242070db, 0xc1bdceee,
   0xf57c0faf, 0x4787c62a, 0xa8304613, 0xfd469501,
   0x698098d8, 0x8b44f7af, 0xffff5bb1, 0x895cd7be,
   0x6b901122, 0xfd987193, 0xa679438e, 0x49b40821,
   0xf61e2562, 0xc040b340, 0x265e5a51, 0xe9b6c7aa,
   0xd62f105d, 0x02441453, 0xd8a1e681, 0xe7d3fbc8,
   0x21e1cde6, 0xc33707d6, 0xf4d50d87, 0x455a14ed,
   0xa9e3e905, 0xfcefa3f8, 0x676f02d9, 0x8d2a4c8a,
   0xfffa3942, 0x8771f681, 0x6d9d6122, 0xfde5380c,
   0xa4beea44, 0x4bdecfa9, 0xf6bb4b60, 0xbebfbc70,
   0x289b7ec6, 0xeaa127fa, 0xd4ef3085, 0x04881d05,
   0xd9d4d039, 0xe6db99e5, 0x1fa27cf8, 0xc4ac5665,
   0xf4292244, 0x432aff97, 0xab9423a7, 0xfc93a039,
   0x655b59c3, 0x8f0ccc92, 0xffeff47d, 0x85845dd1,
   0x6fa87e4f, 0xfe2ce6e0, 0xa3014314, 0x4e0811a1,
   0xf7537e82, 0xbd3af235, 0x2ad7d2bb, 0xeb86d391]

/-- The per-round left-rotation amounts. -/
def md5S : List Nat :=
  [7, 12, 17, 22, 7, 12, 17, 22, 7, 12, 17, 22, 7, 12, 17, 22,
   5, 9, 14, 20, 5, 9, 14, 20, 5, 9, 14, 20, 5, 9, 14, 20,
   4, 11, 16, 23, 4, 11, 16, 23, 4, 11, 16, 23, 4, 11, 16, 23,
   6, 10, 15, 21, 6, 10, 15, 21, 6, 10, 15, 21, 6, 10, 15, 21]

structure Md5State where
  a : Nat
  b : Nat
  c : Nat
  d : Nat

def md5F (i b c d : Nat) : Nat :=
  if i < 16 then (b &&& c) ||| (not32 b &&& d)
  else if i < 32 then (d &&& b) ||| (not32 d &&& c)
  else if i < 48 then b ^^^ c ^^^ d
  else c ^^^ (b ||| not32 d)

def md5G (i : Nat) : Nat :=
  if i < 16 then i
  else if i < 32 then (5 * i + 1) % 16
  else if i < 48 then (3 * i + 5) % 16
  else 7 * i % 16

def md5Step (m : List Nat) (s : Md5State) (i : Nat) : Md5State :=
  let f := add32 (add32 (add32 s.a (md5F i s.b s.c s.d)) (md5K.getD i 0))
    (m.getD (md5G i) 0)
  ⟨s.d, add32 s.b (rotl32 (md5S.getD i 0) f), s.b, s.c⟩

/-- Group bytes into little-endian 32-bit words. -/
def toWords32 : List Nat → List Nat
  | b0 :: b1 :: b2 :: b3 :: rest => leValue [b0, b1, b2, b3] :: toWords32 rest
  | _ => []

def md5Block (s : Md5State) (m : List Nat) : Md5State :=
  let t := (List.range 64).foldl (md5Step m) s
  ⟨add32 s.a t.a, add32 s.b t.b, add32 s.c t.c, add32 s.d t.d⟩

set_option linter.unusedVariables false in
def md5Blocks (s : Md5State) (l : List Nat) : Md5State :=
  if hnil : l = [] then s
  else md5Blocks (md5Block s (toWords32 (l.take 64))) (l.drop 64)
termination_by l.length
decreasing_by
  rw [List.length_drop]
  have hne : l.length ≠ 0 := fun hh => hnil (List.eq_nil_of_length_eq_zero hh)
  omega

/-- MD5 padding: a 0x80 byte, zeros to 56 mod 64, then the bit length
as 8 little-endian bytes. -/
def md5Pad (msg : List Nat) : List Nat :=
  msg ++ 0x80 :: List.replicate ((120 - (msg.length + 1) % 64) % 64) 0 ++
    leBytes 8 (8 * msg.length % 2 ^ 64)

def md5 (msg : List Nat) : List Nat :=
  let s := md5Blocks ⟨0x67452301, 0xefcdab89, 0x98badcfe, 0x10325476⟩
    (md5Pad msg)
  leBytes 4 s.a ++ leBytes 4 s.b ++ leBytes 4 s.c ++ leBytes 4 s.d

/-! ### `Uuid`: the deterministic identifier -/

/-- The X.500 namespace UUID bytes used by `Uuid::from_name_and_date`. -/
def NAMESPACE_X500 : List Nat :=
  [0x6b, 0xa7, 0xb8, 0x14, 0x9d, 0xad, 0x11, 0xd1,
   0x80, 0xb4, 0x00, 0xc0, 0x4f, 0xd4, 0x30, 0xc8]

/-- `uuid::Uuid::new_v3`: MD5 of namespace bytes and name, with the
version nibble forced to 3 and the variant bits to RFC 4122. -/
def uuidV3Bytes (ns name : List Nat) : List Nat :=
  let h := md5 (ns ++ name)
  (h.set 6 (h.getD 6 0 % 16 + 0x30)).set 8 (h.getD 8 0 % 64 + 0x80)

def lowerHexDigit (d : Nat) : Nat := if d < 10 then 48 + d else 87 + d

def byteHexPair (b : Nat) : List Nat :=
  [lowerHexDigit (b / 16 % 16), lowerHexDigit (b % 16)]

def hexcat (l : List Nat) : List Nat := (l.map byteHexPair).flatten

/-- The canonical lowercase hyphenated rendering of 16 UUID bytes
(`uuid::Uuid::to_string`). -/
def uuidToText (u : List Nat) : List Nat :=
  hexcat (u.take 4) ++ 45 :: hexcat ((u.drop 4).take 2) ++ 45 ::
    hexcat ((u.drop 6).take 2) ++ 45 :: hexcat ((u.drop 8).take 2) ++ 45 ::
    hexcat (u.drop 10)

/-- `DateTime<Utc>::to_rfc3339` of the datetime interpreted as UTC:
the same text as the Debug form, followed by the +00:00 offset. -/
def rfc3339Bytes (d : NaiveDateTime) : List Nat :=
  fmtDateTime d.val ++ [43, 48, 48, 58, 48, 48]

/-- `Uuid` wraps the textual form of a UUID. -/
structure Uuid where
  text : List Nat
deriving DecidableEq

/-- `Uuid::from_name_and_date`: the canonical text of the v3 UUID in
the X.500 namespace over the name bytes concatenated with the RFC 3339
rendering of the creation date. -/
def Uuid.from_name_and_date (name : List Nat) (d : NaiveDateTime) : Uuid :=
  ⟨uuidToText (uuidV3Bytes NAMESPACE_X500 (name ++ rfc3339Bytes d))⟩

def Uuid.as_str (u : Uuid) : List Nat := u.text

def Uuid.into_string (u : Uuid) : List Nat := u.text

/-- `ToString for Uuid` clones the stored text. -/
def Uuid.to_string (u : Uuid) : List Nat := u.text

/-- The derived `Default` instance wraps the empty string. -/
def Uuid.default : Uuid := ⟨[]⟩

/-! #### The uuid crate text parser -/

def hexVal (c : Nat) : Option Nat :=
  if 48 ≤ c ∧ c ≤ 57 then some (c - 48)
  else if 97 ≤ c ∧ c ≤ 102 then some (c - 87)
  else if 65 ≤ c ∧ c ≤ 70 then some (c - 55)
  else none

/-- Parse pairs of hex digits into bytes. -/
def parseHexPairs : List Nat → Option (List Nat)
  | [] => some []
  | c1 :: c2 :: rest =>
    match hexVal c1, hexVal c2, parseHexPairs rest with
    | some hi, some lo, some bs => some ((16 * hi + lo) :: bs)
    | _, _, _ => none
  | _ => none

/-- The 36-character hyphenated form: hyphens at positions 8, 13, 18
and 23, hex digits elsewhere (caller has checked the length). -/
def parseHyphenated (s : List Nat) : Option (List Nat) :=
  if s.getD 8 0 = 45 ∧ s.getD 13 0 = 45 ∧ s.getD 18 0 = 45 ∧
      s.getD 23 0 = 45 then
    parseHexPairs (s.take 8 ++ (s.drop 9).take 4 ++ (s.drop 14).take 4 ++
      (s.drop 19).take 4 ++ s.drop 24)
  else none

def uuidUrnPfx : List Nat := [117, 114, 110, 58, 117, 117, 105, 100, 58]

/-- `uuid::Uuid::parse_str`: simple (32), hyphenated (36), braced
hyphenated (38) and urn (45) forms. -/
def parseUuidText (s : List Nat) : Option (List Nat) :=
  if s.length = 32 then parseHexPairs s
  else if s.length = 36 then parseHyphenated s
  else if s.length = 38 ∧ s.getD 0 0 = 123 ∧ s.getD 37 0 = 125 then
    parseHyphenated ((s.drop 1).take 36)
  else if s.length = 45 ∧ s.take 9 = uuidUrnPfx then
    parseHyphenated (s.drop 9)
  else none

/-- `TryFrom<&str> for Uuid`: parse, then store the canonical text of
the parsed UUID. -/
def Uuid.try_from (s : List Nat) : Option Uuid :=
  (parseUuidText s).map fun b => ⟨uuidToText b⟩

/-! ### Spec-side UUID syntax (the grammar, stated independently of
the parser) -/

/-- A hex digit character (either case). -/
def isHexDigitB (c : Nat) : Bool :=
  decide (48 ≤ c ∧ c ≤ 57) || decide (97 ≤ c ∧ c ≤ 102) ||
    decide (65 ≤ c ∧ c ≤ 70)

/-- Hyphens at positions 8, 13, 18, 23 and hex digits in the five
groups (for a 36-character candidate). -/
def validHyphGroups (s : List Nat) : Bool :=
  decide (s.getD 8 0 = 45) && decide (s.getD 13 0 = 45) &&
  decide (s.getD 18 0 = 45) && decide (s.getD 23 0 = 45) &&
  (s.take 8 ++ (s.drop 9).take 4 ++ (s.drop 14).take 4 ++
    (s.drop 19).take 4 ++ s.drop 24).all isHexDigitB

/-- Syntactically valid UUID text: one of the simple, hyphenated,
braced or urn forms. -/
def validUuidSyntax (s : List Nat) : Bool :=
  (decide (s.length = 32) && s.all isHexDigitB) ||
  (decide (s.length = 36) && validHyphGroups s) ||
  (decide (s.length = 38) && decide (s.getD 0 0 = 123) &&
    decide (s.getD 37 0 = 125) && validHyphGroups ((s.drop 1).take 36)) ||
  (decide (s.length = 45) && decide (s.take 9 = uuidUrnPfx) &&
    validHyphGroups (s.drop 9))

/-! ## Theorems -/

theorem leBytes_length (k n : Nat) : (leBytes k n).length = k := by
  induction k generalizing n with
  | zero => rfl
  | succ k ih => simp [leBytes, ih]

theorem leValue_leBytes (k n : Nat) : leValue (leBytes k n) = n % 256 ^ k := by
  induction k generalizing n with
  | zero => simp [leBytes, leValue, Nat.mod_one]
  | succ k ih =>
    rw [leBytes, leValue, ih]
    have hp : (256 : Nat) ^ (k + 1) = 256 * 256 ^ k := by ring
    rw [hp, Nat.mod_mul]
    omega

theorem leBytes_lt (k n : Nat) : ∀ b ∈ leBytes k n, b < 256 := by
  induction k generalizing n with
  | zero => simp [leBytes]
  | succ k ih =>
    intro b hb
    rw [leBytes] at hb
    rcases List.mem_cons.mp hb with h | h
    · omega
    · exact ih _ _ h

/-- An all-ASCII byte sequence is valid UTF-8. -/
theorem validUtf8_of_ascii (l : List Nat) (h : ∀ b ∈ l, b < 0x80) :
    validUtf8 l = true := by
  unfold validUtf8
  induction l with
  | nil => rfl
  | cons b rest ih =>
    have hb : b < 0x80 := h b (List.mem_cons_self b rest)
    rw [validUtf8Go, utf8Pending, if_pos hb]
    exact ih fun x hx => h x (List.mem_cons_of_mem b hx)

theorem bincodeDecodeBytes_encode (content : List Nat)
    (h : content.length < 2 ^ 64) :
    bincodeDecodeBytes (bincodeEncodeBytes content) = some content := by
  unfold bincodeDecodeBytes bincodeEncodeBytes
  have hlen : (leBytes 8 content.length).length = 8 := leBytes_length 8 _
  have htake : (leBytes 8 content.length ++ content).take 8 =
      leBytes 8 content.length := hlen ▸ List.take_left _ _
  have hdrop : (leBytes 8 content.length ++ content).drop 8 = content :=
    hlen ▸ List.drop_left _ _
  rw [htake, hdrop]
  have hval : leValue (leBytes 8 content.length) = content.length := by
    rw [leValue_leBytes]
    exact Nat.mod_eq_of_lt (lt_of_lt_of_le h (by norm_num))
  rw [hval]
  have h8 : 8 ≤ (leBytes 8 content.length ++ content).length := by
    rw [List.length_append, hlen]; omega
  rw [if_pos h8, if_pos (Nat.le_refl _), List.take_length]

theorem bincodeDecodeI64_encode (i : Int) (hlo : -(2 ^ 63) ≤ i)
    (hhi : i < 2 ^ 63) : bincodeDecodeI64 (encodeI64 i) = some i := by
  unfold bincodeDecodeI64 encodeI64
  have hlen : (leBytes 8 ((i % (2 ^ 64))).toNat).length = 8 := leBytes_length 8 _
  rw [if_pos (by omega), List.take_of_length_le (by omega), leValue_leBytes]
  have hnn : (0 : Int) ≤ (i % (2 ^ 64)) := Int.emod_nonneg i (by norm_num)
  have hub : (i % (2 ^ 64)) < 2 ^ 64 := Int.emod_lt_of_pos i (by norm_num)
  have hmod : (((i % (2 ^ 64))).toNat : Int) = (i % (2 ^ 64)) :=
    Int.toNat_of_nonneg hnn
  have hsmall : ((i % (2 ^ 64))).toNat % 256 ^ 8 = ((i % (2 ^ 64))).toNat :=
    Nat.mod_eq_of_lt (by omega)
  rw [hsmall]
  rw [i64FromLe]
  split <;> rw [Option.some.injEq] <;> omega

theorem digitRun_append (ds r : List Nat) (acc : Nat)
    (hd : ∀ d ∈ ds, d < 10) (hr : nonDigitHead r) :
    digitRun acc (ds.map digitByte ++ r) = (digitsVal acc ds, r) := by
  induction ds generalizing acc with
  | nil =>
    cases r with
    | nil => rfl
    | cons c rest =>
      have hc : ¬(48 ≤ c ∧ c ≤ 57) := by
        rcases hr with h | h <;> omega
      simp [digitRun, hc, digitsVal]
  | cons d ds ih =>
    have hd0 : d < 10 := hd d (List.mem_cons_self _ _)
    have hcond : 48 ≤ digitByte d ∧ digitByte d ≤ 57 := by
      unfold digitByte; omega
    rw [List.map_cons, List.cons_append, digitRun, if_pos hcond]
    have hval : acc * 10 + (digitByte d - 48) = acc * 10 + d := by
      unfold digitByte; omega
    rw [hval, ih _ (fun x hx => hd x (List.mem_cons_of_mem _ hx))]
    rfl

theorem parseNum_map (ds r : List Nat) (hne : ds ≠ [])
    (hd : ∀ d ∈ ds, d < 10) (hr : nonDigitHead r) :
    parseNum (ds.map digitByte ++ r) = some (digitsVal 0 ds, r) := by
  cases ds with
  | nil => exact absurd rfl hne
  | cons d tl =>
    have hd0 : d < 10 := hd d (List.mem_cons_self _ _)
    have hcond : 48 ≤ digitByte d ∧ digitByte d ≤ 57 := by
      unfold digitByte; omega
    rw [List.map_cons, List.cons_append, parseNum, if_pos hcond]
    have hval : digitByte d - 48 = d := by unfold digitByte; omega
    rw [hval, digitRun_append tl r d
      (fun x hx => hd x (List.mem_cons_of_mem _ hx)) hr]
    have : digitsVal 0 (d :: tl) = digitsVal d tl := by
      simp [digitsVal]
    rw [this]

theorem digitList_append (ds r : List Nat) (hd : ∀ d ∈ ds, d < 10)
    (hr : nonDigitHead r) : digitList (ds.map digitByte ++ r) = (ds, r) := by
  induction ds with
  | nil =>
    cases r with
    | nil => rfl
    | cons c rest =>
      have hc : ¬(48 ≤ c ∧ c ≤ 57) := by
        rcases hr with h | h <;> omega
      simp [digitList, hc]
  | cons d ds ih =>
    have hd0 : d < 10 := hd d (List.mem_cons_self _ _)
    have hcond : 48 ≤ digitByte d ∧ digitByte d ≤ 57 := by
      unfold digitByte; omega
    rw [List.map_cons, List.cons_append, digitList]
    rw [if_pos hcond, ih (fun x hx => hd x (List.mem_cons_of_mem _ hx))]
    have hval : digitByte d - 48 = d := by unfold digitByte; omega
    rw [hval]

theorem pad6_eq_map (n : Nat) :
    pad6 n = [n / 1000 / 100, n / 1000 / 10 % 10, n / 1000 % 10,
              n % 1000 / 100, n % 1000 / 10 % 10, n % 1000 % 10].map digitByte := rfl

theorem pad9_eq_map (n : Nat) :
    pad9 n = [n / 1000000 / 100, n / 1000000 / 10 % 10, n / 1000000 % 10,
              n / 1000 % 1000 / 100, n / 1000 % 1000 / 10 % 10, n / 1000 % 1000 % 10,
              n % 1000 / 100, n % 1000 / 10 % 10, n % 1000 % 10].map digitByte := rfl

theorem digitList_map (ds : List Nat) (hd : ∀ d ∈ ds, d < 10) :
    digitList (ds.map digitByte) = (ds, []) := by
  have h := digitList_append ds [] hd trivial
  simpa using h

theorem parseFrac_fracBytes (ns : Nat) (h : ns < 1000000000) :
    parseFrac (fracBytes ns) = some (ns, []) := by
  unfold fracBytes
  by_cases h0 : ns = 0
  · subst h0; rfl
  rw [if_neg h0]
  by_cases h6 : ns % 1000000 = 0
  · rw [if_pos h6, pad3, parseFrac]
    rw [digitList_map _ (by intro x hx; simp at hx; omega)]
    simp [digitsVal]
    omega
  rw [if_neg h6]
  by_cases h3 : ns % 1000 = 0
  · rw [if_pos h3, pad6_eq_map, parseFrac]
    rw [digitList_map _ (by intro x hx; simp at hx; omega)]
    simp [digitsVal]
    omega
  · rw [if_neg h3, pad9_eq_map, parseFrac]
    rw [digitList_map _ (by intro x hx; simp at hx; omega)]
    simp [digitsVal]
    omega

theorem optBind_some {α β : Type} (a : α) (f : α → Option β) :
    Option.bind (some a) f = f a := rfl

theorem expectByte_same (v : Nat) (l : List Nat) :
    expectByte v (v :: l) = some l := by simp [expectByte]

theorem daysInMonth_le (y m : Nat) : daysInMonth y m ≤ 31 := by
  unfold daysInMonth
  split
  · split <;> omega
  · split <;> omega

theorem nonDigitHead_fracBytes (ns : Nat) : nonDigitHead (fracBytes ns) := by
  unfold fracBytes
  split
  · trivial
  split
  · exact Or.inl (by norm_num)
  split
  · exact Or.inl (by norm_num)
  · exact Or.inl (by norm_num)

theorem digitsVal_pad4 (n : Nat) :
    digitsVal 0 [n / 1000, n / 100 % 10, n / 10 % 10, n % 10] = n := by
  simp [digitsVal]; omega

theorem digitsVal_pad2 (n : Nat) :
    digitsVal 0 [n / 10, n % 10] = n := by
  simp [digitsVal]; omega

theorem parseDateTime_fmt (d : DateFields) (hv : validDate d) :
    parseDateTime (fmtDateTime d) = some d := by
  have hv' := hv
  obtain ⟨hy, hmo1, hmo2, hda1, hda2, hh, hmi, hs, hns⟩ := hv'
  have hda31 : d.day ≤ 31 := le_trans hda2 (daysInMonth_le _ _)
  have step4 : ∀ (c : Nat) (r : List Nat), c < 48 ∨ 57 < c →
      parseNum (List.map digitByte
        [d.year / 1000, d.year / 100 % 10, d.year / 10 % 10, d.year % 10] ++
        c :: r) = some (d.year, c :: r) := by
    intro c r hc
    rw [parseNum_map
      [d.year / 1000, d.year / 100 % 10, d.year / 10 % 10, d.year % 10]
      (c :: r) (by simp) (by intro x hx; simp at hx; omega) hc,
      digitsVal_pad4 d.year]
  have step2 : ∀ (n c : Nat) (r : List Nat), n < 100 → (c < 48 ∨ 57 < c) →
      parseNum (List.map digitByte [n / 10, n % 10] ++ c :: r) =
        some (n, c :: r) := by
    intro n c r hn hc
    rw [parseNum_map [n / 10, n % 10] (c :: r) (by simp)
      (by intro x hx; simp at hx; omega) hc, digitsVal_pad2 n]
  have step2f : ∀ n : Nat, n < 100 →
      parseNum (List.map digitByte [n / 10, n % 10] ++ fracBytes d.nano) =
        some (n, fracBytes d.nano) := by
    intro n hn
    rw [parseNum_map _ _ (by simp) (by intro x hx; simp at hx; omega)
      (nonDigitHead_fracBytes _), digitsVal_pad2 n]
  rw [parseDateTime, fmtDateTime]
  simp only [pad4, pad2, List.cons_append, List.append_assoc]
  rw [step4 45 _ (Or.inl (by norm_num))]
  simp only [optBind_some]
  rw [expectByte_same]
  simp only [optBind_some]
  rw [step2 d.month 45 _ (by omega) (Or.inl (by norm_num))]
  simp only [optBind_some]
  rw [expectByte_same]
  simp only [optBind_some]
  rw [step2 d.day 84 _ (by omega) (Or.inr (by norm_num))]
  simp only [optBind_some]
  rw [expectByte_same]
  simp only [optBind_some]
  rw [step2 d.hour 58 _ (by omega) (Or.inr (by norm_num))]
  simp only [optBind_some]
  rw [expectByte_same]
  simp only [optBind_some]
  rw [step2 d.minute 58 _ (by omega) (Or.inr (by norm_num))]
  simp only [optBind_some]
  rw [expectByte_same]
  simp only [optBind_some]
  rw [step2f d.second (by omega)]
  simp only [optBind_some]
  rw [parseFrac_fracBytes _ hns]
  simp only [optBind_some]
  simp only [if_true]
  rw [if_pos (show validDate ⟨d.year, d.month, d.day, d.hour, d.minute,
    d.second, d.nano⟩ from hv)]

/-! ### Helper lemmas about the codec -/

theorem leValue_lt (l : List Nat) : leValue l < 256 ^ l.length := by
  induction l with
  | nil => simp [leValue]
  | cons b rest ih =>
    rw [leValue, List.length_cons, pow_succ]
    have hb : b % 256 < 256 := Nat.mod_lt _ (by norm_num)
    calc b % 256 + 256 * leValue rest
        ≤ 255 + 256 * leValue rest := by omega
      _ < 256 * (leValue rest + 1) := by omega
      _ ≤ 256 * 256 ^ rest.length := by
          have := ih
          omega
      _ = 256 ^ rest.length * 256 := by ring

theorem leBytes_leValue (l : List Nat) (hb : ∀ x ∈ l, x < 256) :
    leBytes l.length (leValue l) = l := by
  induction l with
  | nil => rfl
  | cons b rest ih =>
    have hb0 : b < 256 := hb b (List.mem_cons_self _ _)
    rw [List.length_cons, leValue, leBytes]
    have h1 : (b % 256 + 256 * leValue rest) % 256 = b := by omega
    have h2 : (b % 256 + 256 * leValue rest) / 256 = leValue rest := by omega
    rw [h1, h2, ih fun x hx => hb x (List.mem_cons_of_mem _ hx)]

/-- Soundness of the byte-sequence decoder: a successful decode
exhibits the buffer as an encoding followed by ignored trailing
bytes. -/
theorem bincodeDecodeBytes_sound (b c : List Nat) (hb : ∀ x ∈ b, x < 256)
    (h : bincodeDecodeBytes b = some c) :
    c.length < 2 ^ 64 ∧ b = bincodeEncodeBytes c ++ (b.drop 8).drop c.length := by
  unfold bincodeDecodeBytes at h
  by_cases h8 : 8 ≤ b.length
  · rw [if_pos h8] at h
    by_cases hle : leValue (b.take 8) ≤ (b.drop 8).length
    · rw [if_pos hle, Option.some.injEq] at h
      subst h
      have hlen : ((b.drop 8).take (leValue (b.take 8))).length =
          leValue (b.take 8) := by
        rw [List.length_take]
        omega
      constructor
      · rw [hlen]
        have := leValue_lt (b.take 8)
        have ht8 : (b.take 8).length = 8 := by rw [List.length_take]; omega
        rw [ht8] at this
        calc leValue (b.take 8) < 256 ^ 8 := this
          _ = 2 ^ 64 := by norm_num
      · unfold bincodeEncodeBytes
        rw [hlen]
        have htb : leBytes 8 (leValue (b.take 8)) = b.take 8 := by
          have ht8 : (b.take 8).length = 8 := by rw [List.length_take]; omega
          have := leBytes_leValue (b.take 8)
            (fun x hx => hb x (List.mem_of_mem_take hx))
          rw [ht8] at this
          exact this
        rw [htb, List.append_assoc, List.take_append_drop,
          List.take_append_drop]
    · rw [if_neg hle] at h
      exact absurd h (by simp)
  · rw [if_neg h8] at h
    exact absurd h (by simp)

/-- Completeness of the byte-sequence decoder on encodings with
trailing bytes. -/
theorem bincodeDecodeBytes_complete (c extra : List Nat)
    (hlen : c.length < 2 ^ 64) :
    bincodeDecodeBytes (bincodeEncodeBytes c ++ extra) = some c := by
  unfold bincodeDecodeBytes bincodeEncodeBytes
  have hl8 : (leBytes 8 c.length).length = 8 := leBytes_length 8 _
  have hassoc : (leBytes 8 c.length ++ c) ++ extra =
      leBytes 8 c.length ++ (c ++ extra) := List.append_assoc _ _ _
  rw [hassoc]
  have htake : (leBytes 8 c.length ++ (c ++ extra)).take 8 =
      leBytes 8 c.length := hl8 ▸ List.take_left _ _
  have hdrop : (leBytes 8 c.length ++ (c ++ extra)).drop 8 = c ++ extra :=
    hl8 ▸ List.drop_left _ _
  rw [htake, hdrop]
  have hval : leValue (leBytes 8 c.length) = c.length := by
    rw [leValue_leBytes]
    exact Nat.mod_eq_of_lt (lt_of_lt_of_le hlen (by norm_num))
  rw [hval]
  rw [if_pos (show 8 ≤ (leBytes 8 c.length ++ (c ++ extra)).length by
    rw [List.length_append, hl8]; omega)]
  rw [if_pos (show c.length ≤ (c ++ extra).length by
    rw [List.length_append]; omega)]
  rw [List.take_left]

theorem convertToString_complete (c extra : List Nat)
    (hv : validUtf8 c = true) (hlen : c.length < 2 ^ 64) :
    Serialized.convertToString (bincodeEncodeBytes c ++ extra) =
      some ⟨c, hv⟩ := by
  unfold Serialized.convertToString
  rw [bincodeDecodeBytes_complete c extra hlen]
  simp [hv]

/-! ### Case-mapping lemmas for `UserId` -/

theorem strToLower_append (a b : List Nat) :
    strToLower (a ++ b) = strToLower a ++ strToLower b := by
  simp [strToLower]

theorem strToLower_charUpper (c : Nat) (h : c < 128) :
    strToLower (charToUpper c) = charToLower c := by
  unfold strToLower charToUpper
  by_cases h1 : 97 ≤ c ∧ c ≤ 122
  · rw [if_pos h1]
    have e1 : charToLower (c - 32) = [c - 32 + 32] := by
      unfold charToLower; rw [if_pos (by omega)]
    have e2 : charToLower c = [c] := by
      unfold charToLower; rw [if_neg (by omega)]
    simp [e1, e2]
    omega
  · rw [if_neg h1, if_neg (by omega)]
    simp

theorem strToLower_upper_eq (s : List Nat) (h : ∀ c ∈ s, c < 128) :
    strToLower (strToUpper s) = strToLower s := by
  induction s with
  | nil => rfl
  | cons c rest ih =>
    have hc := h c (List.mem_cons_self _ _)
    have e : strToUpper (c :: rest) = charToUpper c ++ strToUpper rest := by
      simp [strToUpper]
    rw [e, strToLower_append, strToLower_charUpper c hc,
      ih fun x hx => h x (List.mem_cons_of_mem _ hx)]
    simp [strToLower]

theorem strToLower_no_upper (s : List Nat) :
    ∀ x ∈ strToLower s, ¬(65 ≤ x ∧ x ≤ 90) := by
  induction s with
  | nil => simp [strToLower]
  | cons c rest ih =>
    intro x hx
    have e : strToLower (c :: rest) = charToLower c ++ strToLower rest := by
      simp [strToLower]
    rw [e] at hx
    rcases List.mem_append.mp hx with h | h
    · unfold charToLower at h
      by_cases hc : 65 ≤ c ∧ c ≤ 90
      · rw [if_pos hc] at h
        simp at h
        omega
      · rw [if_neg hc] at h
        simp at h
        omega
    · exact ih x h

/-! ### ASCII bounds and length of the datetime text -/

theorem pad2_ascii (n : Nat) (h : n < 100) : ∀ x ∈ pad2 n, x < 128 := by
  intro x hx; simp [pad2, digitByte] at hx; omega

theorem pad3_ascii (n : Nat) (h : n < 1000) : ∀ x ∈ pad3 n, x < 128 := by
  intro x hx; simp [pad3, digitByte] at hx; omega

theorem pad4_ascii (n : Nat) (h : n < 10000) : ∀ x ∈ pad4 n, x < 128 := by
  intro x hx; simp [pad4, digitByte] at hx; omega

theorem fracBytes_ascii (ns : Nat) (h : ns < 1000000000) :
    ∀ x ∈ fracBytes ns, x < 128 := by
  intro x hx
  unfold fracBytes at hx
  by_cases h0 : ns = 0
  · rw [if_pos h0] at hx; simp at hx
  rw [if_neg h0] at hx
  by_cases h6 : ns % 1000000 = 0
  · rw [if_pos h6] at hx
    rcases List.mem_cons.mp hx with h' | h'
    · omega
    · exact pad3_ascii _ (by omega) _ h'
  rw [if_neg h6] at hx
  by_cases h3 : ns % 1000 = 0
  · rw [if_pos h3] at hx
    rcases List.mem_cons.mp hx with h' | h'
    · omega
    · unfold pad6 at h'
      rcases List.mem_append.mp h' with h'' | h''
      · exact pad3_ascii _ (by omega) _ h''
      · exact pad3_ascii _ (by omega) _ h''
  · rw [if_neg h3] at hx
    rcases List.mem_cons.mp hx with h' | h'
    · omega
    · unfold pad9 at h'
      rcases List.mem_append.mp h' with h'' | h''
      · rcases List.mem_append.mp h'' with h3' | h3'
        · exact pad3_ascii _ (by omega) _ h3'
        · exact pad3_ascii _ (by omega) _ h3'
      · exact pad3_ascii _ (by omega) _ h''

theorem fmtDateTime_ascii (f : DateFields) (hv : validDate f) :
    ∀ x ∈ fmtDateTime f, x < 128 := by
  obtain ⟨hy, hmo1, hmo2, hda1, hda2, hh, hmi, hs, hns⟩ := hv
  have hda31 : f.day ≤ 31 := le_trans hda2 (daysInMonth_le _ _)
  intro x hx
  unfold fmtDateTime at hx
  rcases List.mem_append.mp hx with hx | h
  swap
  · exact fracBytes_ascii _ hns _ h
  rcases List.mem_append.mp hx with hx | h
  swap
  · rcases List.mem_cons.mp h with h | h
    · omega
    · exact pad2_ascii _ (by omega) _ h
  rcases List.mem_append.mp hx with hx | h
  swap
  · rcases List.mem_cons.mp h with h | h
    · omega
    · exact pad2_ascii _ (by omega) _ h
  rcases List.mem_append.mp hx with hx | h
  swap
  · rcases List.mem_cons.mp h with h | h
    · omega
    · exact pad2_ascii _ (by omega) _ h
  rcases List.mem_append.mp hx with hx | h
  swap
  · rcases List.mem_cons.mp h with h | h
    · omega
    · exact pad2_ascii _ (by omega) _ h
  rcases List.mem_append.mp hx with hx | h
  swap
  · rcases List.mem_cons.mp h with h | h
    · omega
    · exact pad2_ascii _ (by omega) _ h
  exact pad4_ascii _ hy _ hx

theorem fracBytes_length_le (ns : Nat) : (fracBytes ns).length ≤ 10 := by
  unfold fracBytes
  by_cases h0 : ns = 0
  · rw [if_pos h0]; simp
  rw [if_neg h0]
  by_cases h6 : ns % 1000000 = 0
  · rw [if_pos h6]; simp [pad3]
  rw [if_neg h6]
  by_cases h3 : ns % 1000 = 0
  · rw [if_pos h3]; simp [pad6, pad3]
  · rw [if_neg h3]; simp [pad9, pad3]

theorem fmtDateTime_length_le (f : DateFields) :
    (fmtDateTime f).length ≤ 29 := by
  have hf := fracBytes_length_le f.nano
  simp [fmtDateTime, pad4, pad2, List.length_append]
  omega

/-! ### Claim theorems (codec, photo, login id, tag) -/

/-- Claim C1: for every value of a supported concrete type (text,
8-byte integer, binary asset, timestamp), decoding the bytes produced
by encoding the value at the same target type returns the value:
`Serialized::from` followed by `convert_to` round-trips. -/
theorem claim_C1_roundtrip :
    (∀ s : RustString, s.val.length < 2 ^ 64 →
      Serialized.convertToString (Serialized.fromStr s) = some s) ∧
    (∀ i : Int, -(2 ^ 63) ≤ i → i < 2 ^ 63 →
      Serialized.convertToI64 (Serialized.fromI64 i) = some i) ∧
    (∀ p : JpegPhoto, p.bytes.length < 2 ^ 64 →
      Serialized.convertToPhoto (Serialized.fromPhoto p) = some p) ∧
    (∀ d : NaiveDateTime,
      Serialized.convertToDateTime (Serialized.fromDateTime d) = some d) := by
  refine ⟨?_, ?_, ?_, ?_⟩
  · intro s h
    unfold Serialized.fromStr Serialized.convertToString
    rw [bincodeDecodeBytes_encode _ h]
    dsimp only
    rw [dif_pos s.property]
    rfl
  · intro i hlo hhi
    exact bincodeDecodeI64_encode i hlo hhi
  · intro p h
    unfold Serialized.fromPhoto Serialized.convertToPhoto
    rw [bincodeDecodeBytes_encode _ h]
    rfl
  · intro d
    unfold Serialized.fromDateTime Serialized.convertToDateTime
    have hlen : (fmtDateTime d.val).length < 2 ^ 64 :=
      lt_of_le_of_lt (fmtDateTime_length_le _) (by norm_num)
    rw [bincodeDecodeBytes_encode _ hlen]
    dsimp only
    rw [if_pos (validUtf8_of_ascii _ (fmtDateTime_ascii _ d.property)),
      parseDateTime_fmt d.val d.property]
    dsimp only
    rw [dif_pos d.property]
    rfl

/-- Witness for claim C1 at concrete inputs of all four types. -/
theorem claim_C1_witness :
    Serialized.convertToString (Serialized.fromStr ⟨[97, 98], by decide⟩) =
      some ⟨[97, 98], by decide⟩ ∧
    Serialized.convertToI64 (Serialized.fromI64 (-5)) = some (-5) ∧
    Serialized.convertToPhoto (Serialized.fromPhoto ⟨[255, 216]⟩) =
      some ⟨[255, 216]⟩ ∧
    Serialized.convertToDateTime
        (Serialized.fromDateTime ⟨⟨2024, 5, 17, 12, 34, 56, 789⟩, by decide⟩) =
      some ⟨⟨2024, 5, 17, 12, 34, 56, 789⟩, by decide⟩ :=
  ⟨claim_C1_roundtrip.1 ⟨[97, 98], by decide⟩ (by decide),
   claim_C1_roundtrip.2.1 (-5) (by norm_num) (by norm_num),
   claim_C1_roundtrip.2.2.1 ⟨[255, 216]⟩ (by decide),
   claim_C1_roundtrip.2.2.2 ⟨⟨2024, 5, 17, 12, 34, 56, 789⟩, by decide⟩⟩

/-- Claim C2: `JpegPhoto` construction from bytes: empty input
succeeds with the null asset; non-empty input that does not decode as
a JPEG fails; non-empty input that decodes succeeds and stores the
bytes unchanged, so `into_bytes` returns exactly the input. -/
theorem claim_C2_jpeg (jpegDecodes : List Nat → Bool) (b : List Nat) :
    (b = [] → JpegPhoto.try_from jpegDecodes b = some JpegPhoto.null) ∧
    (b ≠ [] → jpegDecodes b = false →
      JpegPhoto.try_from jpegDecodes b = none) ∧
    (b ≠ [] → jpegDecodes b = true →
      JpegPhoto.try_from jpegDecodes b = some ⟨b⟩ ∧
        JpegPhoto.into_bytes ⟨b⟩ = b) := by
  refine ⟨?_, ?_, ?_⟩
  · intro h
    subst h
    rfl
  · intro hne hdec
    unfold JpegPhoto.try_from
    rw [if_neg (by simpa using hne), if_neg (by simp [hdec])]
  · intro hne hdec
    unfold JpegPhoto.try_from
    rw [if_neg (by simpa using hne), if_pos hdec]
    exact ⟨rfl, rfl⟩

/-- Witness for claim C2: a decoder that accepts, and one that
rejects, at concrete byte inputs. -/
theorem claim_C2_witness :
    JpegPhoto.try_from (fun _ => true) [] = some JpegPhoto.null ∧
    JpegPhoto.try_from (fun _ => false) [1] = none ∧
    JpegPhoto.try_from (fun _ => true) [1] = some ⟨[1]⟩ ∧
    JpegPhoto.into_bytes ⟨[1]⟩ = [1] :=
  ⟨(claim_C2_jpeg (fun _ => true) []).1 rfl,
   (claim_C2_jpeg (fun _ => false) [1]).2.1 (by simp) rfl,
   ((claim_C2_jpeg (fun _ => true) [1]).2.2 (by simp) rfl).1,
   ((claim_C2_jpeg (fun _ => true) [1]).2.2 (by simp) rfl).2⟩

/-- Claim C6 counterexample: the case-fold invariant fails on the
sharp s U+00DF, whose uppercase form is the two-letter SS: lowercasing
leaves it unchanged while the uppercased string lowers to ss. -/
theorem claim_C6_counterexample :
    UserId.new (strToUpper [0xDF]) ≠ UserId.new [0xDF] := by decide

/-- Claim C6 (amended): for every ASCII string, `UserId::new`
coincides on the string and its uppercased form, and the stored form
contains no uppercase letters. -/
theorem claim_C6_amended (s : List Nat) (h : ∀ c ∈ s, c < 128) :
    UserId.new s = UserId.new (strToUpper s) ∧
    ∀ x ∈ (UserId.new s).as_str, ¬(65 ≤ x ∧ x ≤ 90) := by
  constructor
  · unfold UserId.new
    rw [strToLower_upper_eq s h]
  · exact strToLower_no_upper s

/-- Witness for the amended claim C6 at a concrete mixed-case ASCII
string. -/
theorem claim_C6_witness :
    UserId.new [65, 98] = UserId.new (strToUpper [65, 98]) ∧
    ∀ x ∈ (UserId.new [65, 98]).as_str, ¬(65 ≤ x ∧ x ≤ 90) :=
  claim_C6_amended [65, 98] (by decide)

/-- Claim C8: attribute type tag parsing is an exact, case-sensitive
match against the four canonical names, failing on all other input,
and `to_str` is its total inverse. -/
theorem claim_C8_attribute_type :
    AttributeType.from_str "Integer" = some AttributeType.Integer ∧
    AttributeType.from_str "integer" = none ∧
    AttributeType.to_str AttributeType.Integer = "Integer" ∧
    (∀ t : AttributeType,
      AttributeType.from_str (AttributeType.to_str t) = some t) ∧
    (∀ s : Text, ∀ t : AttributeType,
      AttributeType.from_str s = some t → s = AttributeType.to_str t) := by
  refine ⟨by decide, by decide, rfl, ?_, ?_⟩
  · intro t
    cases t <;> decide
  · intro s t h
    unfold AttributeType.from_str at h
    split_ifs at h with h1 h2 h3 h4
    · injection h with h'
      subst h'
      exact h1
    · injection h with h'
      subst h'
      exact h2
    · injection h with h'
      subst h'
      exact h3
    · injection h with h'
      subst h'
      exact h4

/-- Witness for claim C8: the exact-match direction applied at the
concrete tag text of the Integer variant. -/
theorem claim_C8_witness : "Integer" = AttributeType.to_str AttributeType.Integer :=
  claim_C8_attribute_type.2.2.2.2 "Integer" AttributeType.Integer (by decide)

/-- Claim C9: encoding an `i64` with the opaque value codec always
yields exactly 8 bytes, for every value including the extremes. -/
theorem claim_C9_i64_len (i : Int) : (Serialized.fromI64 i).length = 8 :=
  leBytes_length 8 _

/-! ### Debug-rendering claims -/

theorem convertToString_sound (b : List Nat) (hb : ∀ x ∈ b, x < 256)
    (s : RustString) (h : Serialized.convertToString b = some s) :
    validUtf8 s.val = true ∧ s.val.length < 2 ^ 64 ∧
    b = bincodeEncodeBytes s.val ++ (b.drop 8).drop s.val.length := by
  unfold Serialized.convertToString at h
  cases hd : bincodeDecodeBytes b with
  | none =>
    rw [hd] at h
    exact absurd h (by simp)
  | some c =>
    rw [hd] at h
    dsimp only at h
    by_cases hv : validUtf8 c = true
    · rw [dif_pos hv] at h
      obtain ⟨hlen, hdec⟩ := bincodeDecodeBytes_sound b c hb hd
      injection h with h'
      subst h'
      exact ⟨hv, hlen, hdec⟩
    · rw [dif_neg hv] at h
      exact absurd h (by simp)

/-- Claim C4 counterexample: the encoding of the i64 value 0 is eight
zero bytes, which coincide with the encoding of the empty string, so
the Debug rendering shows the empty text and not the decimal form
of 0. -/
theorem claim_C4_counterexample :
    serializedDebugField (Serialized.fromI64 0) = [] ∧
    intDecimalBytes 0 = [48] ∧
    serializedDebugField (Serialized.fromI64 0) ≠ intDecimalBytes 0 := by
  refine ⟨by decide, by decide, by decide⟩

/-- Claim C4 (amended): the Debug display field follows the ordered
fallback chain: a buffer that is the byte-sequence encoding of UTF-8
text followed by ignored trailing bytes shows that text; otherwise an
8-byte buffer shows the decimal form of the i64 value it encodes (for
every nonzero i64, the encoding shows its decimal form; the encoding
of 0 is also the encoding of the empty string and shows empty text);
any other buffer shows the `hash: ` fingerprint of the fixed 64-bit
SipHash-1-3 of the bytes, zero-padded uppercase hex of total width 16
prefixed `0x`. -/
theorem claim_C4_amended (b : List Nat) (hb : ∀ x ∈ b, x < 256) :
    (∀ c, validUtf8 c = true → c.length < 2 ^ 64 →
      (∃ extra, b = bincodeEncodeBytes c ++ extra) →
      serializedDebugField b = c) ∧
    ((¬ ∃ c extra, validUtf8 c = true ∧ c.length < 2 ^ 64 ∧
        b = bincodeEncodeBytes c ++ extra) → b.length = 8 →
      serializedDebugField b = intDecimalBytes (i64FromLe (leValue b)) ∧
      b = encodeI64 (i64FromLe (leValue b))) ∧
    ((¬ ∃ c extra, validUtf8 c = true ∧ c.length < 2 ^ 64 ∧
        b = bincodeEncodeBytes c ++ extra) → b.length ≠ 8 →
      serializedDebugField b = hashFallback b) ∧
    (∀ i : Int, i ≠ 0 → -(2 ^ 63) ≤ i → i < 2 ^ 63 →
      serializedDebugField (Serialized.fromI64 i) = intDecimalBytes i) := by
  have hnone : (¬ ∃ c extra, validUtf8 c = true ∧ c.length < 2 ^ 64 ∧
      b = bincodeEncodeBytes c ++ extra) →
      Serialized.convertToString b = none := by
    intro hno
    cases hcs : Serialized.convertToString b with
    | none => rfl
    | some s =>
      obtain ⟨hv, hlen, hdec⟩ := convertToString_sound b hb s hcs
      exact absurd ⟨s.val, (b.drop 8).drop s.val.length, hv, hlen, hdec⟩ hno
  refine ⟨?_, ?_, ?_, ?_⟩
  · rintro c hv hlen ⟨extra, rfl⟩
    unfold serializedDebugField
    rw [convertToString_complete c extra hv hlen]
  · intro hno h8
    have hn := hnone hno
    constructor
    · unfold serializedDebugField
      rw [hn]
      dsimp only
      rw [if_pos h8, List.take_of_length_le (by omega)]
    · have hlv : leValue b < 2 ^ 64 := by
        have h1 := leValue_lt b
        rw [h8] at h1
        exact lt_of_lt_of_le h1 (by norm_num)
      have hback := leBytes_leValue b hb
      rw [h8] at hback
      unfold encodeI64 i64FromLe
      split
      · have he : (((leValue b : Int)) % (2 ^ 64)).toNat = leValue b := by
          omega
        rw [he, hback]
      · have he : ((((leValue b : Int)) - 2 ^ 64) % (2 ^ 64)).toNat =
            leValue b := by omega
        rw [he, hback]
  · intro hno hne
    have hn := hnone hno
    unfold serializedDebugField
    rw [hn]
    dsimp only
    rw [if_neg hne]
  · intro i hi hlo hhi
    have hub1 : (0 : Int) ≤ i % (2 ^ 64) := Int.emod_nonneg i (by norm_num)
    have hub2 : i % (2 ^ 64) < 2 ^ 64 := Int.emod_lt_of_pos i (by norm_num)
    have hmlt : ((i % (2 ^ 64))).toNat < 2 ^ 64 := by omega
    have hm0 : ((i % (2 ^ 64))).toNat ≠ 0 := by omega
    have hlen : (leBytes 8 ((i % (2 ^ 64))).toNat).length = 8 :=
      leBytes_length _ _
    have hm : leValue (leBytes 8 ((i % (2 ^ 64))).toNat) =
        ((i % (2 ^ 64))).toNat := by
      rw [leValue_leBytes]
      exact Nat.mod_eq_of_lt (lt_of_lt_of_le hmlt (by norm_num))
    have hn : Serialized.convertToString (Serialized.fromI64 i) = none := by
      unfold Serialized.fromI64 encodeI64 Serialized.convertToString
        bincodeDecodeBytes
      rw [List.take_of_length_le (by omega), hm]
      rw [if_pos (by rw [hlen])]
      rw [if_neg (by rw [List.length_drop, hlen]; omega)]
    unfold serializedDebugField
    rw [hn]
    dsimp only
    unfold Serialized.fromI64 encodeI64
    rw [if_pos hlen, List.take_of_length_le (by omega), hm]
    have he : i64FromLe ((i % (2 ^ 64))).toNat = i := by
      unfold i64FromLe
      split <;> omega
    rw [he]

/-- No byte-sequence decomposition exists for a buffer shorter than
the 8-byte length prefix. -/
theorem no_text_decomp_of_short (b : List Nat) (h : b.length < 8) :
    ¬ ∃ c extra, validUtf8 c = true ∧ c.length < 2 ^ 64 ∧
      b = bincodeEncodeBytes c ++ extra := by
  rintro ⟨c, extra, _, _, heq⟩
  have hl := congrArg List.length heq
  unfold bincodeEncodeBytes at hl
  rw [List.length_append, List.length_append, leBytes_length] at hl
  omega

/-- The buffer 9,0,0,0,0,0,0,0 admits no text decomposition: its
length prefix asks for 9 content bytes and none remain. -/
theorem no_text_decomp_nine : ¬ ∃ c extra, validUtf8 c = true ∧
    c.length < 2 ^ 64 ∧
    ([9, 0, 0, 0, 0, 0, 0, 0] : List Nat) = bincodeEncodeBytes c ++ extra := by
  rintro ⟨c, extra, _, _, heq⟩
  have hl := congrArg List.length heq
  unfold bincodeEncodeBytes at hl
  rw [List.length_append, List.length_append, leBytes_length] at hl
  have h9 : ([9, 0, 0, 0, 0, 0, 0, 0] : List Nat).length = 8 := rfl
  have hc : c = [] := List.eq_nil_of_length_eq_zero (by omega)
  have hx : extra = [] := List.eq_nil_of_length_eq_zero (by omega)
  subst hc
  subst hx
  exact absurd heq (by decide)

/-- Witness for the amended claim C4: all three chain branches and the
nonzero-decimal case, at concrete buffers. -/
theorem claim_C4_witness :
    serializedDebugField (bincodeEncodeBytes [104, 105] ++ [7]) = [104, 105] ∧
    serializedDebugField [9, 0, 0, 0, 0, 0, 0, 0] =
      intDecimalBytes (i64FromLe (leValue [9, 0, 0, 0, 0, 0, 0, 0])) ∧
    serializedDebugField [200] = hashFallback [200] ∧
    serializedDebugField (Serialized.fromI64 (-7)) = intDecimalBytes (-7) :=
  ⟨(claim_C4_amended (bincodeEncodeBytes [104, 105] ++ [7]) (by decide)).1
      [104, 105] (by decide) (by decide) ⟨[7], rfl⟩,
   ((claim_C4_amended [9, 0, 0, 0, 0, 0, 0, 0] (by decide)).2.1
      no_text_decomp_nine (by decide)).1,
   (claim_C4_amended [200] (by decide)).2.2.1
      (no_text_decomp_of_short [200] (by decide)) (by decide),
   (claim_C4_amended [200] (by decide)).2.2.2 (-7) (by norm_num)
      (by norm_num) (by norm_num)⟩

/-- Claim C10: the Debug rendering is total and deterministic: it is a
function of the bytes alone, always producing one of the three
fallback-chain outcomes (decoded text, decimal integer, or the stable
SipHash-1-3 fingerprint), never failing. -/
theorem claim_C10_debug_total (b : List Nat) :
    (∃ s : RustString, Serialized.convertToString b = some s ∧
      serializedDebugField b = s.val) ∨
    (Serialized.convertToString b = none ∧ b.length = 8 ∧
      serializedDebugField b =
        intDecimalBytes (i64FromLe (leValue (b.take 8)))) ∨
    (Serialized.convertToString b = none ∧ b.length ≠ 8 ∧
      serializedDebugField b = hashFallback b) := by
  cases hcs : Serialized.convertToString b with
  | some s =>
    left
    refine ⟨s, rfl, ?_⟩
    unfold serializedDebugField
    rw [hcs]
  | none =>
    by_cases h8 : b.length = 8
    · right; left
      refine ⟨rfl, h8, ?_⟩
      unfold serializedDebugField
      rw [hcs]
      dsimp only
      rw [if_pos h8]
    · right; right
      refine ⟨rfl, h8, ?_⟩
      unfold serializedDebugField
      rw [hcs]
      dsimp only
      rw [if_neg h8]

/-! ### Lemmas about the UUID text forms -/

theorem hexcat_append (a b : List Nat) :
    hexcat (a ++ b) = hexcat a ++ hexcat b := by
  simp [hexcat]

theorem hexcat_length (l : List Nat) : (hexcat l).length = 2 * l.length := by
  induction l with
  | nil => rfl
  | cons b r ih =>
    have e : hexcat (b :: r) = byteHexPair b ++ hexcat r := by simp [hexcat]
    rw [e, List.length_append, ih]
    simp [byteHexPair]
    omega

theorem hexVal_lowerHexDigit (d : Nat) (h : d < 16) :
    hexVal (lowerHexDigit d) = some d := by
  unfold hexVal lowerHexDigit
  by_cases h10 : d < 10
  · rw [if_pos h10, if_pos (by omega)]
    simp only [Option.some.injEq]
    omega
  · rw [if_neg h10, if_neg (by omega), if_pos (by omega)]
    simp only [Option.some.injEq]
    omega

theorem parseHexPairs_hexcat : ∀ l : List Nat, (∀ x ∈ l, x < 256) →
    parseHexPairs (hexcat l) = some l
  | [], _ => rfl
  | b :: rest, h => by
    have hb : b < 256 := h b (List.mem_cons_self _ _)
    have e : hexcat (b :: rest) =
        lowerHexDigit (b / 16 % 16) :: lowerHexDigit (b % 16) ::
          hexcat rest := by
      simp [hexcat, byteHexPair]
    rw [e, parseHexPairs, hexVal_lowerHexDigit _ (by omega),
      hexVal_lowerHexDigit _ (by omega),
      parseHexPairs_hexcat rest (fun x hx => h x (List.mem_cons_of_mem _ hx))]
    dsimp only
    simp only [Option.some.injEq, List.cons.injEq]
    refine ⟨by omega, by simp⟩

theorem md5_length (msg : List Nat) : (md5 msg).length = 16 := by
  unfold md5
  simp [List.length_append, leBytes_length]

theorem md5_lt (msg : List Nat) : ∀ x ∈ md5 msg, x < 256 := by
  unfold md5
  intro x hx
  rcases List.mem_append.mp hx with hx | hx
  · rcases List.mem_append.mp hx with hx | hx
    · rcases List.mem_append.mp hx with hx | hx
      · exact leBytes_lt _ _ _ hx
      · exact leBytes_lt _ _ _ hx
    · exact leBytes_lt _ _ _ hx
  · exact leBytes_lt _ _ _ hx

theorem uuidV3Bytes_length (ns name : List Nat) :
    (uuidV3Bytes ns name).length = 16 := by
  unfold uuidV3Bytes
  simp [List.length_set, md5_length]

theorem uuidV3Bytes_lt (ns name : List Nat) :
    ∀ x ∈ uuidV3Bytes ns name, x < 256 := by
  unfold uuidV3Bytes
  intro x hx
  rcases List.mem_or_eq_of_mem_set hx with hx | hx
  · rcases List.mem_or_eq_of_mem_set hx with hx | hx
    · exact md5_lt _ _ hx
    · omega
  · omega

/-- Structural facts about the five-part hyphenated text
`A-B-C-D-E` with group lengths 8, 4, 4, 4. -/
theorem fiveParts (A B C D E : List Nat) (hA : A.length = 8)
    (hB : B.length = 4) (hC : C.length = 4) (hD : D.length = 4) :
    (A ++ 45 :: B ++ 45 :: C ++ 45 :: D ++ 45 :: E).getD 8 0 = 45 ∧
    (A ++ 45 :: B ++ 45 :: C ++ 45 :: D ++ 45 :: E).getD 13 0 = 45 ∧
    (A ++ 45 :: B ++ 45 :: C ++ 45 :: D ++ 45 :: E).getD 18 0 = 45 ∧
    (A ++ 45 :: B ++ 45 :: C ++ 45 :: D ++ 45 :: E).getD 23 0 = 45 ∧
    (A ++ 45 :: B ++ 45 :: C ++ 45 :: D ++ 45 :: E).take 8 = A ∧
    ((A ++ 45 :: B ++ 45 :: C ++ 45 :: D ++ 45 :: E).drop 9).take 4 = B ∧
    ((A ++ 45 :: B ++ 45 :: C ++ 45 :: D ++ 45 :: E).drop 14).take 4 = C ∧
    ((A ++ 45 :: B ++ 45 :: C ++ 45 :: D ++ 45 :: E).drop 19).take 4 = D ∧
    (A ++ 45 :: B ++ 45 :: C ++ 45 :: D ++ 45 :: E).drop 24 = E := by
  have l3 : (A ++ 45 :: B).length = 13 := by
    rw [List.length_append, List.length_cons, hA, hB]
  have l2 : ((A ++ 45 :: B) ++ 45 :: C).length = 18 := by
    rw [List.length_append, List.length_cons, l3, hC]
  have l1 : (((A ++ 45 :: B) ++ 45 :: C) ++ 45 :: D).length = 23 := by
    rw [List.length_append, List.length_cons, l2, hD]
  refine ⟨?_, ?_, ?_, ?_, ?_, ?_, ?_, ?_, ?_⟩
  · rw [List.getD_append _ _ _ _ (by omega), List.getD_append _ _ _ _ (by omega),
      List.getD_append _ _ _ _ (by omega),
      List.getD_append_right _ _ _ _ (by omega), hA]
    rfl
  · rw [List.getD_append _ _ _ _ (by omega), List.getD_append _ _ _ _ (by omega),
      List.getD_append_right _ _ _ _ (by omega), l3]
    rfl
  · rw [List.getD_append _ _ _ _ (by omega),
      List.getD_append_right _ _ _ _ (by omega), l2]
    rfl
  · rw [List.getD_append_right _ _ _ _ (by omega), l1]
    rfl
  · rw [List.take_append_of_le_length (by omega),
      List.take_append_of_le_length (by omega),
      List.take_append_of_le_length (by omega),
      List.take_append_of_le_length (by omega),
      List.take_of_length_le (by omega)]
  · rw [List.drop_append_of_le_length (by omega),
      List.drop_append_of_le_length (by omega),
      List.drop_append_of_le_length (by omega),
      (by omega : (9 : Nat) = A.length + 1), List.drop_append]
    simp only [List.drop_succ_cons, List.drop_zero]
    rw [List.take_append_of_le_length
        (by simp only [List.length_append, List.length_cons]; omega),
      List.take_append_of_le_length
        (by simp only [List.length_append, List.length_cons]; omega),
      List.take_append_of_le_length (by omega),
      List.take_of_length_le (by omega)]
  · rw [List.drop_append_of_le_length (by omega),
      List.drop_append_of_le_length (by omega),
      (by omega : (14 : Nat) = (A ++ 45 :: B).length + 1), List.drop_append]
    simp only [List.drop_succ_cons, List.drop_zero]
    rw [List.take_append_of_le_length
        (by simp only [List.length_append, List.length_cons]; omega),
      List.take_append_of_le_length (by omega),
      List.take_of_length_le (by omega)]
  · rw [List.drop_append_of_le_length (by omega),
      (by omega : (19 : Nat) = ((A ++ 45 :: B) ++ 45 :: C).length + 1),
      List.drop_append]
    simp only [List.drop_succ_cons, List.drop_zero]
    rw [List.take_append_of_le_length (by omega),
      List.take_of_length_le (by omega)]
  · rw [(by omega :
        (24 : Nat) = (((A ++ 45 :: B) ++ 45 :: C) ++ 45 :: D).length + 1),
      List.drop_append]
    simp only [List.drop_succ_cons, List.drop_zero]

/-- Parsing inverts the canonical rendering of 16 UUID bytes. -/
theorem parseUuidText_toText (u : List Nat) (hlen : u.length = 16)
    (hb : ∀ x ∈ u, x < 256) : parseUuidText (uuidToText u) = some u := by
  have lA : (hexcat (u.take 4)).length = 8 := by
    rw [hexcat_length, List.length_take]; omega
  have lB : (hexcat ((u.drop 4).take 2)).length = 4 := by
    rw [hexcat_length, List.length_take, List.length_drop]; omega
  have lC : (hexcat ((u.drop 6).take 2)).length = 4 := by
    rw [hexcat_length, List.length_take, List.length_drop]; omega
  have lD : (hexcat ((u.drop 8).take 2)).length = 4 := by
    rw [hexcat_length, List.length_take, List.length_drop]; omega
  have lE : (hexcat (u.drop 10)).length = 12 := by
    rw [hexcat_length, List.length_drop]; omega
  obtain ⟨g8, g13, g18, g23, t8, t9, t14, t19, t24⟩ :=
    fiveParts _ _ _ _ (hexcat (u.drop 10)) lA lB lC lD
  have lenText : (uuidToText u).length = 36 := by
    unfold uuidToText
    simp only [List.length_append, List.length_cons, lA, lB, lC, lD, lE]
  unfold parseUuidText
  rw [lenText, if_neg (by norm_num), if_pos rfl]
  unfold parseHyphenated uuidToText
  rw [if_pos ⟨g8, g13, g18, g23⟩, t8, t9, t14, t19, t24,
    ← hexcat_append, ← hexcat_append, ← hexcat_append, ← hexcat_append]
  have d8 : (u.drop 8).take 2 ++ u.drop 10 = u.drop 8 := by
    have e : (u.drop 8).drop 2 = u.drop 10 := by
      rw [List.drop_drop]
    rw [← e, List.take_append_drop]
  have d6 : (u.drop 6).take 2 ++ u.drop 8 = u.drop 6 := by
    have e : (u.drop 6).drop 2 = u.drop 8 := by
      rw [List.drop_drop]
    rw [← e, List.take_append_drop]
  have d4 : (u.drop 4).take 2 ++ u.drop 6 = u.drop 4 := by
    have e : (u.drop 4).drop 2 = u.drop 6 := by
      rw [List.drop_drop]
    rw [← e, List.take_append_drop]
  have hsplit : (((u.take 4 ++ (u.drop 4).take 2) ++ (u.drop 6).take 2) ++
      (u.drop 8).take 2) ++ u.drop 10 = u := by
    simp only [List.append_assoc]
    rw [d8, d6, d4, List.take_append_drop]
  rw [hsplit, parseHexPairs_hexcat u hb]

/-! ### Parser soundness and the syntax characterization -/

theorem hexVal_le (c v : Nat) (h : hexVal c = some v) : v < 16 := by
  unfold hexVal at h
  split_ifs at h with h1 h2 h3 <;>
    simp only [Option.some.injEq] at h <;> omega

theorem hexVal_isSome (c : Nat) : (hexVal c).isSome = isHexDigitB c := by
  unfold hexVal isHexDigitB
  split_ifs with h1 h2 h3 <;> simp_all

theorem parseHexPairs_sound : ∀ l bs : List Nat, parseHexPairs l = some bs →
    (∀ x ∈ bs, x < 256) ∧ 2 * bs.length = l.length
  | [], bs, h => by
    simp only [parseHexPairs, Option.some.injEq] at h
    subst h
    simp
  | [c], bs, h => by
    simp [parseHexPairs] at h
  | c1 :: c2 :: rest, bs, h => by
    rw [parseHexPairs] at h
    cases h1 : hexVal c1 with
    | none => rw [h1] at h; simp at h
    | some hi =>
      rw [h1] at h
      cases h2 : hexVal c2 with
      | none => rw [h2] at h; simp at h
      | some lo =>
        rw [h2] at h
        cases h3 : parseHexPairs rest with
        | none => rw [h3] at h; simp at h
        | some bs2 =>
          rw [h3] at h
          simp only [Option.some.injEq] at h
          subst h
          obtain ⟨ihb, ihl⟩ := parseHexPairs_sound rest bs2 h3
          have hhi := hexVal_le c1 hi h1
          have hlo := hexVal_le c2 lo h2
          constructor
          · intro x hx
            rcases List.mem_cons.mp hx with hx | hx
            · omega
            · exact ihb x hx
          · simp only [List.length_cons]
            omega

theorem parseHexPairs_isSome_even : ∀ l : List Nat, l.length % 2 = 0 →
    (parseHexPairs l).isSome = l.all isHexDigitB
  | [], _ => by simp [parseHexPairs]
  | [c], h => by simp at h
  | c1 :: c2 :: rest, h => by
    have hr : rest.length % 2 = 0 := by
      simp only [List.length_cons] at h
      omega
    have ih := parseHexPairs_isSome_even rest hr
    have e1 := hexVal_isSome c1
    have e2 := hexVal_isSome c2
    rw [parseHexPairs]
    cases h1 : hexVal c1 <;> cases h2 : hexVal c2 <;>
      cases h3 : parseHexPairs rest <;> simp_all

/-- For a 36-character candidate, the parser succeeds exactly on the
valid hyphenated syntax. -/
theorem parseHyphenated_isSome (s : List Nat) (hs : s.length = 36) :
    (parseHyphenated s).isSome = validHyphGroups s := by
  unfold parseHyphenated validHyphGroups
  have hgl : (s.take 8 ++ (s.drop 9).take 4 ++ (s.drop 14).take 4 ++
      (s.drop 19).take 4 ++ s.drop 24).length % 2 = 0 := by
    simp only [List.length_append, List.length_take, List.length_drop, hs]
    omega
  by_cases hh : s.getD 8 0 = 45 ∧ s.getD 13 0 = 45 ∧ s.getD 18 0 = 45 ∧
      s.getD 23 0 = 45
  · rw [if_pos hh, parseHexPairs_isSome_even _ hgl]
    obtain ⟨h8, h13, h18, h23⟩ := hh
    rw [h8, h13, h18, h23]
    simp
  · rw [if_neg hh]
    have hfin : (decide (s.getD 8 0 = 45) && decide (s.getD 13 0 = 45) &&
        decide (s.getD 18 0 = 45) && decide (s.getD 23 0 = 45)) = false := by
      cases e8 : decide (s.getD 8 0 = 45) <;>
        cases e13 : decide (s.getD 13 0 = 45) <;>
        cases e18 : decide (s.getD 18 0 = 45) <;>
        cases e23 : decide (s.getD 23 0 = 45) <;> simp_all
    rw [hfin, Bool.false_and]
    rfl

/-- The parser accepts exactly the syntactically valid UUID texts. -/
theorem parseUuidText_isSome (s : List Nat) :
    (parseUuidText s).isSome = validUuidSyntax s := by
  unfold parseUuidText validUuidSyntax
  by_cases h32 : s.length = 32
  · rw [if_pos h32, parseHexPairs_isSome_even _ (by omega)]
    rw [h32]
    norm_num
  rw [if_neg h32]
  by_cases h36 : s.length = 36
  · rw [if_pos h36, parseHyphenated_isSome s h36, h36]
    norm_num
  rw [if_neg h36]
  by_cases h38 : s.length = 38 ∧ s.getD 0 0 = 123 ∧ s.getD 37 0 = 125
  · rw [if_pos h38]
    obtain ⟨hl, hb1, hb2⟩ := h38
    rw [parseHyphenated_isSome _
      (by rw [List.length_take, List.length_drop]; omega)]
    rw [hl, hb1, hb2]
    norm_num
  rw [if_neg h38]
  by_cases h45 : s.length = 45 ∧ s.take 9 = uuidUrnPfx
  · rw [if_pos h45]
    obtain ⟨hl, hp⟩ := h45
    rw [parseHyphenated_isSome _ (by rw [List.length_drop]; omega)]
    rw [hl, hp]
    norm_num
  · rw [if_neg h45]
    have e1 : decide (s.length = 32) = false := by simp [h32]
    have e2 : decide (s.length = 36) = false := by simp [h36]
    have e38 : (decide (s.length = 38) && decide (s.getD 0 0 = 123) &&
        decide (s.getD 37 0 = 125)) = false := by
      cases b1 : decide (s.length = 38) <;>
        cases b2 : decide (s.getD 0 0 = 123) <;>
        cases b3 : decide (s.getD 37 0 = 125) <;> simp_all
    have e45 : (decide (s.length = 45) &&
        decide (s.take 9 = uuidUrnPfx)) = false := by
      cases b1 : decide (s.length = 45) <;>
        cases b2 : decide (s.take 9 = uuidUrnPfx) <;> simp_all
    rw [e1, e2, e38, e45]
    simp

theorem parseHyphenated_sound (s bs : List Nat) (hs : s.length = 36)
    (h : parseHyphenated s = some bs) :
    bs.length = 16 ∧ ∀ x ∈ bs, x < 256 := by
  unfold parseHyphenated at h
  by_cases hh : s.getD 8 0 = 45 ∧ s.getD 13 0 = 45 ∧ s.getD 18 0 = 45 ∧
      s.getD 23 0 = 45
  · rw [if_pos hh] at h
    obtain ⟨hb, hl⟩ := parseHexPairs_sound _ bs h
    have hg : (s.take 8 ++ (s.drop 9).take 4 ++ (s.drop 14).take 4 ++
        (s.drop 19).take 4 ++ s.drop 24).length = 32 := by
      simp only [List.length_append, List.length_take, List.length_drop, hs]
      omega
    rw [hg] at hl
    exact ⟨by omega, hb⟩
  · rw [if_neg hh] at h
    exact absurd h (by simp)

theorem parseUuidText_sound (s bs : List Nat)
    (h : parseUuidText s = some bs) :
    bs.length = 16 ∧ ∀ x ∈ bs, x < 256 := by
  unfold parseUuidText at h
  split_ifs at h with h32 h36 h38 h45
  · obtain ⟨hb, hl⟩ := parseHexPairs_sound s bs h
    rw [h32] at hl
    exact ⟨by omega, hb⟩
  · exact parseHyphenated_sound s bs h36 h
  · obtain ⟨hl, -, -⟩ := h38
    exact parseHyphenated_sound _ bs
      (by rw [List.length_take, List.length_drop]; omega) h
  · obtain ⟨hl, -⟩ := h45
    exact parseHyphenated_sound _ bs (by rw [List.length_drop]; omega) h

theorem uuid_try_from_sound (s : List Nat) (u : Uuid)
    (h : Uuid.try_from s = some u) :
    ∃ bytes, parseUuidText s = some bytes ∧ u.text = uuidToText bytes := by
  unfold Uuid.try_from at h
  cases hp : parseUuidText s with
  | none =>
    rw [hp] at h
    dsimp only [Option.map] at h
    exact Option.noConfusion h
  | some bytes =>
    rw [hp] at h
    dsimp only [Option.map] at h
    injection h with h'
    exact ⟨bytes, rfl, by rw [← h']⟩

/-! ### Claim theorems (Uuid) -/

/-- Claim C3: `Uuid::from_name_and_date` is the canonical text of the
name-based version-3 UUID over the name bytes concatenated with the
RFC 3339 UTC form of the timestamp; its text parses back to exactly
those UUID bytes, and identical input pairs give identical identifier
strings, with no randomness. -/
theorem claim_C3_uuid_derivation :
    (∀ (name : List Nat) (d : NaiveDateTime),
      Uuid.from_name_and_date name d =
        ⟨uuidToText (uuidV3Bytes NAMESPACE_X500 (name ++ rfc3339Bytes d))⟩ ∧
      parseUuidText (Uuid.from_name_and_date name d).text =
        some (uuidV3Bytes NAMESPACE_X500 (name ++ rfc3339Bytes d))) ∧
    (∀ (n1 n2 : List Nat) (d1 d2 : NaiveDateTime), n1 = n2 → d1 = d2 →
      Uuid.from_name_and_date n1 d1 = Uuid.from_name_and_date n2 d2) := by
  constructor
  · intro name d
    exact ⟨rfl,
      parseUuidText_toText _ (uuidV3Bytes_length _ _) (uuidV3Bytes_lt _ _)⟩
  · rintro n1 n2 d1 d2 rfl rfl
    rfl

/-- Witness for claim C3: determinism and parse-back at a concrete
name and creation date. -/
theorem claim_C3_witness :
    Uuid.from_name_and_date [97] ⟨⟨2024, 1, 2, 3, 4, 5, 0⟩, by decide⟩ =
      Uuid.from_name_and_date [97] ⟨⟨2024, 1, 2, 3, 4, 5, 0⟩, by decide⟩ ∧
    parseUuidText (Uuid.from_name_and_date [97]
        ⟨⟨2024, 1, 2, 3, 4, 5, 0⟩, by decide⟩).text =
      some (uuidV3Bytes NAMESPACE_X500
        ([97] ++ rfc3339Bytes ⟨⟨2024, 1, 2, 3, 4, 5, 0⟩, by decide⟩)) :=
  ⟨claim_C3_uuid_derivation.2 [97] [97] _ _ rfl rfl,
   (claim_C3_uuid_derivation.1 [97] _).2⟩

/-- Claim C5 counterexample: the derived `Default` constructor is part
of the public interface and wraps the empty string, which does not
parse as a valid UUID. -/
theorem claim_C5_counterexample :
    Uuid.default.text = [] ∧ parseUuidText Uuid.default.text = none :=
  ⟨rfl, rfl⟩

/-- Claim C5 (amended): every `Uuid` constructed by derivation or by
successful parsing holds text that parses as a valid UUID, and `Uuid`
equality (hence hashing) coincides with equality of the stored text.
The derived `Default` (and the unvalidated database conversion) can
construct values outside this invariant. -/
theorem claim_C5_amended :
    (∀ (name : List Nat) (d : NaiveDateTime),
      (parseUuidText (Uuid.from_name_and_date name d).text).isSome = true) ∧
    (∀ (s : List Nat) (u : Uuid), Uuid.try_from s = some u →
      (parseUuidText u.text).isSome = true) ∧
    (∀ u1 u2 : Uuid, u1 = u2 ↔ u1.text = u2.text) := by
  refine ⟨?_, ?_, ?_⟩
  · intro name d
    show (parseUuidText (uuidToText
      (uuidV3Bytes NAMESPACE_X500 (name ++ rfc3339Bytes d)))).isSome = true
    rw [parseUuidText_toText _ (uuidV3Bytes_length _ _) (uuidV3Bytes_lt _ _)]
    rfl
  · intro s u h
    obtain ⟨bytes, hp, ht⟩ := uuid_try_from_sound s u h
    obtain ⟨hlen, hb⟩ := parseUuidText_sound s bytes hp
    rw [ht, parseUuidText_toText bytes hlen hb]
    rfl
  · intro u1 u2
    constructor
    · intro h
      rw [h]
    · intro h
      cases u1
      cases u2
      simpa using h

/-- Witness for the amended claim C5 at concrete constructions. -/
theorem claim_C5_witness :
    (parseUuidText (Uuid.from_name_and_date []
        ⟨⟨1970, 1, 1, 0, 0, 0, 0⟩, by decide⟩).text).isSome = true ∧
    (parseUuidText
        (Uuid.mk (uuidToText (List.replicate 16 0))).text).isSome = true ∧
    Uuid.mk [] = Uuid.mk [] :=
  ⟨claim_C5_amended.1 [] _,
   claim_C5_amended.2.1 (uuidToText (List.replicate 16 0))
     ⟨uuidToText (List.replicate 16 0)⟩ (by decide),
   (claim_C5_amended.2.2 ⟨[]⟩ ⟨[]⟩).mpr rfl⟩

/-- Claim C7: a successful parse stores the canonical lowercase
hyphenated text denoting the same UUID bytes as the input, and parsing
fails exactly on input that is not syntactically valid UUID text
(simple, hyphenated, braced or urn form). -/
theorem claim_C7_parse :
    (∀ (s : List Nat) (u : Uuid), Uuid.try_from s = some u →
      ∃ bytes, parseUuidText s = some bytes ∧ u.text = uuidToText bytes ∧
        parseUuidText u.text = some bytes) ∧
    (∀ s : List Nat, Uuid.try_from s = none ↔ validUuidSyntax s = false) := by
  constructor
  · intro s u h
    obtain ⟨bytes, hp, ht⟩ := uuid_try_from_sound s u h
    obtain ⟨hlen, hb⟩ := parseUuidText_sound s bytes hp
    exact ⟨bytes, hp, ht, by rw [ht, parseUuidText_toText bytes hlen hb]⟩
  · intro s
    have hiso := parseUuidText_isSome s
    unfold Uuid.try_from
    constructor
    · intro h
      cases hp : parseUuidText s with
      | none =>
        rw [hp] at hiso
        simpa using hiso.symm
      | some bytes =>
        rw [hp] at h
        simp at h
    · intro h
      cases hp : parseUuidText s with
      | none => rfl
      | some bytes =>
        rw [hp, h] at hiso
        simp at hiso

/-- Witness for claim C7: a successful concrete parse and a concrete
failure. -/
theorem claim_C7_witness :
    (∃ bytes,
      parseUuidText (uuidToText (List.replicate 16 255)) = some bytes ∧
      (Uuid.mk (uuidToText (List.replicate 16 255))).text = uuidToText bytes ∧
      parseUuidText (Uuid.mk (uuidToText (List.replicate 16 255))).text =
        some bytes) ∧
    Uuid.try_from [] = none :=
  ⟨claim_C7_parse.1 (uuidToText (List.replicate 16 255))
      ⟨uuidToText (List.replicate 16 255)⟩ (by decide),
   (claim_C7_parse.2 []).mpr (by decide)⟩

end Lldap
